import Mathlib

/-!
Shallow embedding of the training/evaluation core of `sl-transformer`
(`src/sl_transformer.py` and `src/model/util/util.py`), together with
theorems settling the specification claims about it.

Tensors are modelled as lists (a 2-D tensor of shape B×T is a
`List (List _)` of B rows of length T, or — for square masks — as a
function of its two indices).  Python floats are modelled as `ℚ` where the
code only adds, multiplies and divides, and as `ℝ` where it takes real
powers (`NoamOpt.rate`).  Fallible operations (Python exceptions) return
`Except`/`Option`.
-/

namespace SLT

/-! ### `model/util/util.py` : `generate_mask`

The square causal mask, modelled entry-wise: a `sz × sz` tensor is a
function of its indices `i j < sz` (the entry value of every intermediate
tensor in the source depends only on `(i, j)`, never on `sz`). -/

/-- `torch.triu(torch.ones(sz, sz))`: entry `(i, j)` is `1` on and above the
diagonal (`i ≤ j`), else `0`. -/
def triu_ones (i j : Nat) : ℚ :=
  if i ≤ j then 1 else 0

/-- `(torch.triu(torch.ones(sz, sz)) == 1).transpose(0, 1)`: boolean mask,
transposed, so entry `(i, j)` compares the `(j, i)` entry to `1`. -/
def transposed_triu (i j : Nat) : Bool :=
  triu_ones j i == 1

/-- `mask.float().masked_fill(mask == 0, -inf).masked_fill(mask == 1, 0.0)`:
`False` positions become `-inf` (modelled as `⊥ : WithBot ℚ`), `True`
positions become `0.0`. -/
def float_mask (i j : Nat) : WithBot ℚ :=
  if transposed_triu i j then ((0 : ℚ) : WithBot ℚ) else ⊥

/-- `generate_mask`: `(mask != float(0.0)).bool()` — `true` marks a position
that is NOT allowed to be attended (per the source docstring). -/
def generate_mask (i j : Nat) : Bool :=
  decide (float_mask i j ≠ ((0 : ℚ) : WithBot ℚ))

/-- Number of forbidden `(i, j)` pairs of the `L × L` causal mask. -/
def forbiddenCount (L : Nat) : Nat :=
  ((Finset.range L ×ˢ Finset.range L).filter fun p => generate_mask p.1 p.2).card

/-! ### `Batch.__init__` (src/sl_transformer.py:500-510)

`trg` is a 2-D batch of raw target rows; the constructor slices off the
last column for `trg` and the first for `trg_y`, and counts the
non-padding entries of `trg_y`.  (The masks are covered by
`generate_mask` above and are not re-modelled here.) -/

structure Batch where
  trg : List (List Nat)
  trg_y : List (List Nat)
  ntokens : Nat

/-- `Batch.__init__`: `self.trg = trg[:, :-1]`, `self.trg_y = trg[:, 1:]`,
`self.ntokens = (self.trg_y != pad).data.sum()`. -/
def Batch.make (trg : List (List Nat)) (pad : Nat) : Batch :=
  let trg' := trg.map fun r => r.dropLast
  let trg_y := trg.map fun r => r.drop 1
  { trg := trg'
    trg_y := trg_y
    ntokens := (trg_y.map fun r => r.countP fun v => v ≠ pad).sum }

/-! ### `calculate_accuracy` (src/sl_transformer.py:121-162)

`greedy_decode` and the data iterator are external to the accuracy
arithmetic: a batch is modelled as the pair (decoded output rows,
reference target rows). -/

/-- `get_mask(tensor, to_ignore)` on one row: start from all-`True`, then
`mask = mask & (tensor != symbol)` for each symbol. -/
def get_mask (row : List Nat) (to_ignore : List Nat) : List Bool :=
  to_ignore.foldl
    (fun mask s => List.zipWith (fun m v => m && decide (v ≠ s)) mask row)
    (row.map fun _ => true)

/-- Boolean-mask indexing `t[mask]`: keep the entries whose mask bit is
`true`. -/
def maskedSelect (row : List Nat) (mask : List Bool) : List Nat :=
  ((row.zip mask).filter fun p => p.2).map fun p => p.1

/-- `matches(out, tgt)`: `(len(out) == len(tgt)) and all(out.eq(tgt))`. -/
def matchesSeq (out tgt : List Nat) : Bool :=
  decide (out.length = tgt.length) && (List.zipWith (fun a b => a == b) out tgt).all fun b => b

/-- One iteration of the `calculate_accuracy` loop: given the running
`(total, correct)` pair and a batch `(out rows, tgt rows)`, add
`tgt.size(0)` to `total` and `sum(correct_items)` to `correct`. -/
def accuracyStep (bos eos : Nat) (acc : Nat × Nat) (b : List (List Nat) × List (List Nat)) :
    Nat × Nat :=
  let TO_IGNORE := [bos, eos]
  let correct_items := List.zipWith
    (fun o t => matchesSeq (maskedSelect o (get_mask o TO_IGNORE))
                        (maskedSelect t (get_mask t TO_IGNORE)))
    b.1 b.2
  (acc.1 + b.2.length, acc.2 + correct_items.count true)

/-- `calculate_accuracy`: fold the loop over all batches, then
`accuracy = (correct / total) if (total > 0) else 0`. -/
def calculate_accuracy (bos eos : Nat) (batches : List (List (List Nat) × List (List Nat))) : ℚ :=
  let s := batches.foldl (accuracyStep bos eos) (0, 0)
  if 0 < s.1 then (s.2 : ℚ) / (s.1 : ℚ) else 0

/-! ### `run_epoch` (src/sl_transformer.py:450-473)

The model forward and the loss-compute strategy are external
collaborators; per batch `b` they contribute the loss value `loss b`
returned by `loss_compute(out, batch.trg_y, batch.ntokens)` and the token
count `ntok b` (`batch.ntokens`).  The timing/logging statements do not
affect the returned value. -/

/-- `run_epoch`: accumulate `total_loss` and `total_tokens` over the
batches, then return `(total_loss / total_tokens) if (total_tokens > 0)
else 0`. -/
def run_epoch {β : Type} (loss : β → ℚ) (ntok : β → Nat) (batches : List β) : ℚ :=
  let s := batches.foldl (fun (acc : ℚ × Nat) b => (acc.1 + loss b, acc.2 + ntok b)) (0, 0)
  if 0 < s.2 then s.1 / (s.2 : ℚ) else 0

/-! ### `LabelSmoothing` (src/sl_transformer.py:425-447) -/

/-- Errors `LabelSmoothing.forward` can raise: the `assert` on the width of
`x`, the `ZeroDivisionError` from `smoothing / (size - 2)` when
`size == 2`, and torch runtime errors from `scatter_` / column indexing
with out-of-range indices or mismatched shapes. -/
inductive LSErr where
  | assertFailed : LSErr
  | zeroDivision : LSErr
  | runtimeError : LSErr
deriving DecidableEq

structure LabelSmoothing where
  padding_idx : Nat
  confidence : ℚ
  smoothing : ℚ
  size : Nat

/-- `LabelSmoothing.__init__`: stores `padding_idx`, `confidence = 1.0 -
smoothing`, `smoothing` and `size`; performs no validation whatsoever. -/
def LabelSmoothing.make (size padding_idx : Nat) (smoothing : ℚ) : LabelSmoothing :=
  { padding_idx := padding_idx
    confidence := 1 - smoothing
    smoothing := smoothing
    size := size }

/-- One row of `true_dist` for target id `t`:
`fill_(smoothing / (size - 2))`, then `scatter_(1, t, confidence)`, then
`true_dist[:, padding_idx] = 0`, then `index_fill_` zeroes the whole row
when `t == padding_idx`. -/
def smoothedRow (ls : LabelSmoothing) (t : Nat) : List ℚ :=
  let base := List.replicate ls.size (ls.smoothing / ((ls.size : ℚ) - 2))
  let scattered := base.set t ls.confidence
  let padZeroed := scattered.set ls.padding_idx 0
  if t = ls.padding_idx then List.replicate ls.size 0 else padZeroed

/-- The full `true_dist` matrix: the clone of `x` is wholly overwritten by
`fill_`, so each row depends only on its target id. -/
def LabelSmoothing.trueDist (ls : LabelSmoothing) (target : List Nat) : List (List ℚ) :=
  target.map (smoothedRow ls)

/-- `LabelSmoothing.forward`, up to the constructed target distribution
(the returned KL-divergence value against `x` is not needed by any claim).
Failure modes, in source order: the `assert x.size(1) == self.size`; the
`ZeroDivisionError` of `smoothing / (size - 2)` when `size == 2` (a Python
`float / 0` — for `size < 2` the denominator is a negative int and no
error is raised); the shape/index runtime errors of `scatter_` and of the
`padding_idx` column assignment. -/
def LabelSmoothing.forwardDist (ls : LabelSmoothing) (x : List (List ℚ)) (target : List Nat) :
    Except LSErr (List (List ℚ)) :=
  if ¬ (x.all fun r => r.length == ls.size) then .error .assertFailed
  else if ls.size = 2 then .error .zeroDivision
  else if target.length ≠ x.length then .error .runtimeError
  else if ¬ (target.all fun t => t < ls.size) then .error .runtimeError
  else if x ≠ [] ∧ ¬ ls.padding_idx < ls.size then .error .runtimeError
  else .ok (ls.trueDist target)

/-! ### `NoamOpt` (src/sl_transformer.py:319-344) -/

structure NoamOpt where
  model_size : ℚ
  factor : ℚ
  warmup : ℚ
  stepCount : Nat
  rateVal : ℚ

/-- `NoamOpt.__init__`: stores the optimizer hyper-parameters, sets
`_step = 0` and `_rate = 0`; performs no validation whatsoever. -/
def NoamOpt.make (model_size factor warmup : ℚ) : NoamOpt :=
  { model_size := model_size
    factor := factor
    warmup := warmup
    stepCount := 0
    rateVal := 0 }

/-- The value computed by `NoamOpt.rate`:
`factor * (model_size ** (-0.5) * min(step ** (-0.5), step * warmup ** (-1.5)))`. -/
noncomputable def noamRate (model_size factor warmup step : ℝ) : ℝ :=
  factor * (model_size ^ (-(1 : ℝ) / 2) *
    min (step ^ (-(1 : ℝ) / 2)) (step * warmup ^ (-(3 : ℝ) / 2)))

/-- `NoamOpt.rate` with its Python error behaviour: `0.0 ** negative`
raises `ZeroDivisionError`, so the call fails whenever `model_size`,
`warmup` or `step` is `0`; otherwise it returns the `noamRate` value.
(Negative bases would yield complex intermediates — not reachable from
the non-negative integer configuration values the code passes.) -/
noncomputable def NoamOpt.rateE (o : NoamOpt) (step : ℚ) : Option ℝ :=
  if o.model_size = 0 ∨ o.warmup = 0 ∨ step = 0 then none
  else some (noamRate (o.model_size : ℝ) (o.factor : ℝ) (o.warmup : ℝ) (step : ℝ))

/-! ### `greedy_decode` (src/sl_transformer.py:476-491)

`model.decode ∘ generator ∘ argmax` is an external collaborator: `next`
maps the current batch of generated prefixes `ys` to the batch of argmax
next tokens (`next_word`), one per sequence. -/

/-- One loop iteration's state update: compute `next_word = argmax` via
`next`, then `ys = torch.cat([ys, next_word.unsqueeze(-1)], dim=1)`.
`greedyLoop` below performs exactly this update each iteration;
`greedyStep` names it so the loop's trajectory
`(greedyStep next)^[k] ys₀` can be spoken about. -/
def greedyStep (next : List (List Nat) → List Nat) (ys : List (List Nat)) :
    List (List Nat) :=
  List.zipWith (fun s w => s ++ [w]) ys (next ys)

/-- The decoding loop body, with `fuel = ` remaining iterations of
`for i in range(max_len - 1)`: compute `next_word`, append it to every
sequence (`ys = torch.cat([ys, next_word], dim=1)`), then
`if all(next_word == end_symbol): break`. -/
def greedyLoop (next : List (List Nat) → List Nat) (end_symbol : Nat) :
    Nat → List (List Nat) → List (List Nat)
  | 0, ys => ys
  | fuel + 1, ys =>
    let next_word := next ys
    let ys' := List.zipWith (fun s w => s ++ [w]) ys next_word
    if next_word.all fun w => w == end_symbol then ys'
    else greedyLoop next end_symbol fuel ys'

/-- `greedy_decode`: start from `B` sequences `[start_symbol]`
(`torch.ones(src.size(0), 1).fill_(start_symbol)`), then run the loop for
up to `max_len - 1` iterations. -/
def greedy_decode (next : List (List Nat) → List Nat)
    (B max_len start_symbol end_symbol : Nat) : List (List Nat) :=
  greedyLoop next end_symbol (max_len - 1) (List.replicate B [start_symbol])

/-! ### `SimpleLossCompute` / `MultiGPULossCompute`
(src/sl_transformer.py:348-365 and 369-422)

The generator is an external module applied position-wise: `gen v` is the
log-probability row the generator produces for the feature vector `v` at
one (batch, time) position.  The criterion (`LabelSmoothing` wrapping
`KLDivLoss(size_average=False)`) sums one term per row of its flattened
input, the term depending only on that row and its target id: it is
modelled by the per-row loss `f` summed with `critSum`.  Backward /
optimizer-step calls mutate gradient state only and never the returned
value, so they do not appear in the value-level embedding. -/

/-- `criterion(x, y)` on flattened inputs: the row-wise sum
`Σ f x_row y_row`. -/
def critSum (f : List ℚ → Nat → ℚ) (xs : List (List ℚ)) (ys : List Nat) : ℚ :=
  (List.zipWith f xs ys).sum

/-- `SimpleLossCompute.__call__(x, y, norm)`:
`x = generator(x)` (position-wise), then
`loss = criterion(x.view(-1, size), y.view(-1)) / norm`, and the returned
value is `loss.data * norm`. -/
def SimpleLossCompute (gen : α → List ℚ) (f : List ℚ → Nat → ℚ)
    (x : List (List α)) (y : List (List Nat)) (norm : ℚ) : ℚ :=
  let gx := x.map fun r => r.map gen
  let loss := critSum f gx.flatten y.flatten / norm
  loss * norm

/-- `nn.parallel.scatter` along the batch dimension: split a batch into
consecutive shards of the given sizes (one per device). -/
def scatterSizes : List Nat → List α → List (List α)
  | [], _ => []
  | n :: rest, x => x.take n :: scatterSizes rest (x.drop n)

/-- Python `range(start, stop, step)` for a positive step. -/
def pyRange (start stop step : Nat) : List Nat :=
  if 0 < step ∧ start < stop then start :: pyRange (start + step) stop step
  else []
termination_by stop - start
decreasing_by omega

/-- The loss one device contributes for the chunk starting at column `i`:
generator applied to `o[:, i:i+chunk_size]`, flattened with
`view(-1, size)`, against the flattened target chunk
`t[:, i:i+chunk_size].view(-1)`. -/
def chunkLoss (gen : α → List ℚ) (f : List ℚ → Nat → ℚ)
    (shard : List (List α)) (tshard : List (List Nat)) (i c : Nat) : ℚ :=
  critSum f
    ((shard.map fun r => ((r.drop i).take c).map gen).flatten)
    ((tshard.map fun r => (r.drop i).take c).flatten)

/-- `MultiGPULossCompute.__call__(out, targets, normalize)`: scatter `out`
and `targets` into per-device shards (`szs` are the shard sizes produced
by `nn.parallel.scatter` for the device list); loop
`for i in range(0, out_scatter[0].size(1), chunk_size)`, each iteration
adding `gather(loss).sum() / normalize` to `total`; return
`total * normalize`. -/
def MultiGPULossCompute (gen : α → List ℚ) (f : List ℚ → Nat → ℚ)
    (szs : List Nat) (chunk_size : Nat)
    (out : List (List α)) (targets : List (List Nat)) (norm : ℚ) : ℚ :=
  let out_scatter := scatterSizes szs out
  let tgt_scatter := scatterSizes szs targets
  let T := ((out_scatter.headD []).headD []).length
  let total := ((pyRange 0 T chunk_size).map fun i =>
    (List.zipWith (fun sh tsh => chunkLoss gen f sh tsh i chunk_size)
      out_scatter tgt_scatter).sum / norm).sum
  total * norm

/-- `nn.parallel.replicate(module, devices=devices)` (external torch
collaborator, called by `MultiGPULossCompute.__init__` at
src/sl_transformer.py:375): eagerly resolves every listed device id and
copies the module to each; it raises at the call site when a listed id is
not an available device (`available` = number of devices). -/
def replicateModules {γ : Type} (available : Nat) (devices : List Nat) (c : γ) :
    Option (List γ) :=
  if devices.all fun d => d < available then some (devices.map fun _ => c) else none

/-- The state `MultiGPULossCompute.__init__` stores: the replicated
criterion, the device list and the chunk size.  (The generator and the
optional optimizer are stored unchanged and play no role in
construction-time failure.) -/
structure MultiGPUState (γ : Type) where
  criterion : List γ
  devices : List Nat
  chunk_size : Nat

/-- `MultiGPULossCompute.__init__`: its only fallible step is the
`nn.parallel.replicate(criterion, devices=devices)` call; everything else
is plain field assignment. -/
def MultiGPULossCompute.make {γ : Type} (available : Nat) (criterion : γ)
    (devices : List Nat) (chunk_size : Nat) : Option (MultiGPUState γ) :=
  (replicateModules available devices criterion).map fun cs =>
    { criterion := cs, devices := devices, chunk_size := chunk_size }

/-! ### Closed forms used to state the accuracy claims -/

/-- Total number of reference sequences seen by `calculate_accuracy`. -/
def totalSequences (batches : List (List (List Nat) × List (List Nat))) : Nat :=
  (batches.map fun b => b.2.length).sum

/-- Total number of `correct_items` that are `True` across all batches. -/
def correctSequences (bos eos : Nat) (batches : List (List (List Nat) × List (List Nat))) : Nat :=
  (batches.map fun b =>
    (List.zipWith
      (fun o t => matchesSeq (maskedSelect o (get_mask o [bos, eos]))
                             (maskedSelect t (get_mask t [bos, eos])))
      b.1 b.2).count true).sum

/-! ## Theorems -/

theorem generate_mask_eq (i j : Nat) : generate_mask i j = decide (i < j) := by
  by_cases h : j ≤ i
  · simp [generate_mask, float_mask, transposed_triu, triu_ones, h, Nat.not_lt.mpr h]
  · simp [generate_mask, float_mask, transposed_triu, triu_ones, h, Nat.lt_of_not_le h]

theorem forbiddenCount_eq (L : Nat) : forbiddenCount L = L * (L - 1) / 2 := by
  have key : ∀ i, (∑ j ∈ Finset.range L, if i < j then 1 else 0) = L - 1 - i := by
    intro i
    rw [← Finset.card_filter]
    have : ((Finset.range L).filter fun j => i < j) = Finset.Ico (i + 1) L := by
      ext j
      simp only [Finset.mem_filter, Finset.mem_range, Finset.mem_Ico]
      omega
    rw [this, Nat.card_Ico]
    omega
  unfold forbiddenCount
  rw [Finset.card_filter, Finset.sum_product]
  simp only [generate_mask_eq, decide_eq_true_eq]
  rw [Finset.sum_congr rfl fun i _ => key i]
  calc (∑ i ∈ Finset.range L, (L - 1 - i))
      = ∑ i ∈ Finset.range L, i := Finset.sum_range_reflect (fun j => j) L
    _ = L * (L - 1) / 2 := Finset.sum_range_id L

/-- C5: for every sequence length `L ≥ 1`, the causal mask forbids position
`i` from attending to position `j` exactly when `j > i`, and the number of
forbidden positions is exactly `L * (L - 1) / 2` (the strictly upper
triangle). -/
theorem causal_mask_spec (L : Nat) (hL : 1 ≤ L) :
    (∀ i j, i < L → j < L → (generate_mask i j = true ↔ j > i)) ∧
    forbiddenCount L = L * (L - 1) / 2 := by
  refine ⟨fun i j _ _ => ?_, forbiddenCount_eq L⟩
  rw [generate_mask_eq]
  exact decide_eq_true_iff

theorem causal_mask_spec_witness :
    1 ≤ 4 ∧
    ((∀ i j, i < 4 → j < 4 → (generate_mask i j = true ↔ j > i)) ∧
      forbiddenCount 4 = 4 * (4 - 1) / 2) :=
  ⟨by decide, causal_mask_spec 4 (by decide)⟩

/-- C4: for a raw target batch, row `r` of length `T ≥ 1`: `Batch.trg`
drops the last position, `Batch.trg_y` drops the first, `trg_y[i]` is the
original `[i+1]`, and `ntokens` counts the non-padding entries of
`trg_y`. -/
theorem batch_spec (rows : List (List Nat)) (pad : Nat) (r T : Nat)
    (hr : r < rows.length) (hT : (rows.getD r []).length = T) (hT1 : 1 ≤ T) :
    ((Batch.make rows pad).trg.getD r [] = (rows.getD r []).dropLast) ∧
    ((Batch.make rows pad).trg.getD r []).length = T - 1 ∧
    ((Batch.make rows pad).trg_y.getD r []).length = T - 1 ∧
    (∀ i, i < T - 1 →
      ((Batch.make rows pad).trg_y.getD r []).getD i 0 = (rows.getD r []).getD (i + 1) 0) ∧
    (Batch.make rows pad).ntokens = (Batch.make rows pad).trg_y.flatten.countP
      fun v => decide (v ≠ pad) := by
  have hg : ∀ (f : List Nat → List Nat), (rows.map f).getD r [] = f (rows.getD r []) := by
    intro f
    rw [List.getD_eq_getElem?_getD, List.getElem?_map,
      List.getElem?_eq_getElem hr]
    simp [List.getD_eq_getElem?_getD, List.getElem?_eq_getElem hr]
  refine ⟨?_, ?_, ?_, ?_, ?_⟩
  · simpa [Batch.make] using hg (fun l => l.dropLast)
  · rw [show (Batch.make rows pad).trg = rows.map (fun l => l.dropLast) from rfl, hg,
      List.length_dropLast, hT]
  · rw [show (Batch.make rows pad).trg_y = rows.map (fun l => l.drop 1) from rfl, hg,
      List.length_drop, hT]
  · intro i hi
    rw [show (Batch.make rows pad).trg_y = rows.map (fun l => l.drop 1) from rfl, hg,
      List.getD_eq_getElem?_getD, List.getElem?_drop, Nat.add_comm 1 i]
    rw [List.getD_eq_getElem?_getD, List.getD_eq_getElem?_getD]
  · rw [show (Batch.make rows pad).ntokens
        = ((rows.map fun l => l.drop 1).map fun l => l.countP fun v => decide (v ≠ pad)).sum
        from rfl,
      show (Batch.make rows pad).trg_y = rows.map (fun l => l.drop 1) from rfl]
    rw [List.countP_flatten]

theorem batch_spec_witness :
    (0 < [[3, 4, 0], [7, 0, 0]].length ∧ ([[3, 4, 0], [7, 0, 0]].getD 0 []).length = 3 ∧ 1 ≤ 3) ∧
    (((Batch.make [[3, 4, 0], [7, 0, 0]] 0).trg.getD 0 [] = ([[3, 4, 0], [7, 0, 0]].getD 0 []).dropLast) ∧
    ((Batch.make [[3, 4, 0], [7, 0, 0]] 0).trg.getD 0 []).length = 3 - 1 ∧
    ((Batch.make [[3, 4, 0], [7, 0, 0]] 0).trg_y.getD 0 []).length = 3 - 1 ∧
    (∀ i, i < 3 - 1 →
      ((Batch.make [[3, 4, 0], [7, 0, 0]] 0).trg_y.getD 0 []).getD i 0
        = ([[3, 4, 0], [7, 0, 0]].getD 0 []).getD (i + 1) 0) ∧
    (Batch.make [[3, 4, 0], [7, 0, 0]] 0).ntokens
      = (Batch.make [[3, 4, 0], [7, 0, 0]] 0).trg_y.flatten.countP fun v => decide (v ≠ 0)) :=
  ⟨⟨by decide, by decide, by decide⟩,
    batch_spec [[3, 4, 0], [7, 0, 0]] 0 0 3 (by decide) (by decide) (by decide)⟩

theorem run_epoch_foldl {β : Type} (loss : β → ℚ) (ntok : β → Nat)
    (batches : List β) (a : ℚ) (n : Nat) :
    batches.foldl (fun (acc : ℚ × Nat) b => (acc.1 + loss b, acc.2 + ntok b)) (a, n)
      = (a + (batches.map loss).sum, n + (batches.map ntok).sum) := by
  induction batches generalizing a n with
  | nil => simp
  | cons b bs ih => simp [ih, add_assoc]

theorem accuracy_foldl (bos eos : Nat) (batches : List (List (List Nat) × List (List Nat)))
    (t c : Nat) :
    batches.foldl (accuracyStep bos eos) (t, c)
      = (t + totalSequences batches, c + correctSequences bos eos batches) := by
  induction batches generalizing t c with
  | nil => simp [totalSequences, correctSequences]
  | cons b bs ih =>
    rw [List.foldl_cons, show accuracyStep bos eos (t, c) b
      = (t + b.2.length,
         c + (List.zipWith
          (fun o t => matchesSeq (maskedSelect o (get_mask o [bos, eos]))
                                 (maskedSelect t (get_mask t [bos, eos])))
          b.1 b.2).count true) from rfl, ih]
    simp [totalSequences, correctSequences, add_assoc]

theorem correctSequences_le (bos eos : Nat)
    (batches : List (List (List Nat) × List (List Nat))) :
    correctSequences bos eos batches ≤ totalSequences batches := by
  unfold correctSequences totalSequences
  apply List.sum_le_sum
  intro b _
  calc (List.zipWith
          (fun o t => matchesSeq (maskedSelect o (get_mask o [bos, eos]))
                                 (maskedSelect t (get_mask t [bos, eos])))
          b.1 b.2).count true
      ≤ (List.zipWith
          (fun o t => matchesSeq (maskedSelect o (get_mask o [bos, eos]))
                                 (maskedSelect t (get_mask t [bos, eos])))
          b.1 b.2).length := List.count_le_length _ _
    _ ≤ b.2.length := by rw [List.length_zipWith]; omega

/-- C7: `run_epoch` returns `0` when the batches contribute zero total
non-padding tokens and `total_loss / total_tokens` otherwise;
`calculate_accuracy` returns `0` on an empty iterator and
`correct / total ∈ [0, 1]` otherwise — neither divides by zero. -/
theorem empty_data_spec {β : Type} (loss : β → ℚ) (ntok : β → Nat)
    (batches : List β) (bos eos : Nat)
    (abatches : List (List (List Nat) × List (List Nat))) :
    ((batches.map ntok).sum = 0 → run_epoch loss ntok batches = 0) ∧
    (0 < (batches.map ntok).sum →
      run_epoch loss ntok batches
        = (batches.map loss).sum / (((batches.map ntok).sum : Nat) : ℚ)) ∧
    calculate_accuracy bos eos [] = 0 ∧
    (totalSequences abatches = 0 → calculate_accuracy bos eos abatches = 0) ∧
    (0 < totalSequences abatches →
      calculate_accuracy bos eos abatches
        = (correctSequences bos eos abatches : ℚ) / (totalSequences abatches : ℚ)) ∧
    0 ≤ calculate_accuracy bos eos abatches ∧ calculate_accuracy bos eos abatches ≤ 1 := by
  have hre : run_epoch loss ntok batches
      = if 0 < (batches.map ntok).sum
        then (batches.map loss).sum / (((batches.map ntok).sum : Nat) : ℚ) else 0 := by
    unfold run_epoch
    rw [run_epoch_foldl]
    simp
  have hacc : calculate_accuracy bos eos abatches
      = if 0 < totalSequences abatches
        then (correctSequences bos eos abatches : ℚ) / (totalSequences abatches : ℚ) else 0 := by
    unfold calculate_accuracy
    rw [accuracy_foldl]
    simp
  have hbound : 0 ≤ calculate_accuracy bos eos abatches
      ∧ calculate_accuracy bos eos abatches ≤ 1 := by
    rw [hacc]
    by_cases h : 0 < totalSequences abatches
    · rw [if_pos h]
      constructor
      · positivity
      · rw [div_le_one (by exact_mod_cast h)]
        exact_mod_cast correctSequences_le bos eos abatches
    · rw [if_neg h]
      norm_num
  refine ⟨fun h0 => ?_, fun hp => ?_, ?_, fun h0 => ?_, fun hp => ?_, hbound⟩
  · rw [hre, if_neg (by omega)]
  · rw [hre, if_pos hp]
  · rfl
  · rw [hacc, if_neg (by omega)]
  · rw [hacc, if_pos hp]

theorem empty_data_spec_witness :
    (([(3, 2), (0, 0)].map Prod.snd).sum = 0 → run_epoch (fun b => (b.1 : ℚ)) Prod.snd [(3, 2), (0, 0)] = 0) ∧
    (0 < ([(3, 2), (0, 0)].map Prod.snd).sum →
      run_epoch (fun b => (b.1 : ℚ)) Prod.snd [(3, 2), (0, 0)]
        = ([(3, 2), (0, 0)].map fun b => (b.1 : ℚ)).sum / ((([(3, 2), (0, 0)].map Prod.snd).sum : Nat) : ℚ)) ∧
    calculate_accuracy 1 2 [] = 0 ∧
    (totalSequences [([[1, 5, 2]], [[1, 5, 2]])] = 0 → calculate_accuracy 1 2 [([[1, 5, 2]], [[1, 5, 2]])] = 0) ∧
    (0 < totalSequences [([[1, 5, 2]], [[1, 5, 2]])] →
      calculate_accuracy 1 2 [([[1, 5, 2]], [[1, 5, 2]])]
        = (correctSequences 1 2 [([[1, 5, 2]], [[1, 5, 2]])] : ℚ)
          / (totalSequences [([[1, 5, 2]], [[1, 5, 2]])] : ℚ)) ∧
    0 ≤ calculate_accuracy 1 2 [([[1, 5, 2]], [[1, 5, 2]])]
      ∧ calculate_accuracy 1 2 [([[1, 5, 2]], [[1, 5, 2]])] ≤ 1 :=
  empty_data_spec (fun b => (b.1 : ℚ)) Prod.snd [(3, 2), (0, 0)] 1 2 [([[1, 5, 2]], [[1, 5, 2]])]

theorem get_mask_foldl (row : List Nat) (ig : List Nat) (g : Nat → Bool) :
    ig.foldl (fun mask s => List.zipWith (fun m v => m && decide (v ≠ s)) mask row) (row.map g)
      = row.map fun v => g v && ig.all fun s => decide (v ≠ s) := by
  induction ig generalizing g with
  | nil => simp
  | cons s rest ih =>
    rw [List.foldl_cons, List.zipWith_map_left, List.zipWith_same, ih]
    simp [Bool.and_assoc]

theorem get_mask_eq (row : List Nat) (ig : List Nat) :
    get_mask row ig = row.map fun v => ig.all fun s => decide (v ≠ s) := by
  unfold get_mask
  simpa using get_mask_foldl row ig fun _ => true

theorem maskedSelect_map (row : List Nat) (p : Nat → Bool) :
    maskedSelect row (row.map p) = row.filter p := by
  induction row with
  | nil => rfl
  | cons v vs ih =>
    by_cases h : p v <;>
      simp [maskedSelect, List.filter_cons, h] <;>
      simpa [maskedSelect] using ih

theorem matchesSeq_iff (a b : List Nat) : matchesSeq a b = true ↔ a = b := by
  induction a generalizing b with
  | nil => cases b <;> simp [matchesSeq]
  | cons x xs ih =>
    cases b with
    | nil => simp [matchesSeq]
    | cons y ys =>
      have := ih ys
      simp only [matchesSeq] at this ⊢
      simp only [List.length_cons, List.zipWith_cons_cons, List.all_cons,
        List.cons.injEq, Bool.and_eq_true, decide_eq_true_eq, beq_iff_eq] at this ⊢
      constructor
      · rintro ⟨hlen, hx, hall⟩
        exact ⟨hx, this.mp ⟨by omega, hall⟩⟩
      · rintro ⟨hx, hxs⟩
        obtain ⟨hlen, hall⟩ := this.mpr hxs
        exact ⟨by omega, hx, hall⟩

/-- C9: the per-sequence correctness test of `calculate_accuracy` strips
every occurrence of the begin and end token ids anywhere in both the
decoded and the reference sequence, and deems the pair correct exactly
when the stripped sequences are equal (same length, element-wise equal). -/
theorem accuracy_filter_spec (bos eos : Nat) (o t : List Nat) :
    (matchesSeq (maskedSelect o (get_mask o [bos, eos]))
                (maskedSelect t (get_mask t [bos, eos])) = true)
      ↔ (o.filter fun v => decide (v ≠ bos) && decide (v ≠ eos))
          = (t.filter fun v => decide (v ≠ bos) && decide (v ≠ eos)) := by
  have hm : ∀ r : List Nat,
      get_mask r [bos, eos] = r.map fun v => decide (v ≠ bos) && decide (v ≠ eos) := by
    intro r
    rw [get_mask_eq]
    simp
  rw [hm, hm, maskedSelect_map, maskedSelect_map, matchesSeq_iff]

theorem sum_set_of_lt (l : List ℚ) (i : Nat) (v : ℚ) (h : i < l.length) :
    (l.set i v).sum = l.sum - l.getD i 0 + v := by
  induction l generalizing i with
  | nil => simp at h
  | cons a as ih =>
    cases i with
    | zero =>
      simp only [List.set_cons_zero, List.sum_cons, List.getD_cons_zero]
      ring
    | succ n =>
      have h' : n < as.length := by simpa using h
      simp only [List.set_cons_succ, List.sum_cons, List.getD_cons_succ, ih n h']
      ring

theorem smoothedRow_length (ls : LabelSmoothing) (t : Nat) :
    (smoothedRow ls t).length = ls.size := by
  unfold smoothedRow
  split <;> simp

theorem smoothedRow_of_pad (ls : LabelSmoothing) (t : Nat) (h : t = ls.padding_idx) :
    smoothedRow ls t = List.replicate ls.size 0 := by
  unfold smoothedRow
  simp [h]

theorem smoothedRow_getD (ls : LabelSmoothing) (t j : Nat) (ht : t < ls.size)
    (hj : j < ls.size) (htp : t ≠ ls.padding_idx) :
    (smoothedRow ls t).getD j 0 =
      if j = ls.padding_idx then 0
      else if j = t then ls.confidence
      else ls.smoothing / ((ls.size : ℚ) - 2) := by
  unfold smoothedRow
  rw [if_neg htp]
  have hb : j < (((List.replicate ls.size (ls.smoothing / ((ls.size : ℚ) - 2))).set t
      ls.confidence).set ls.padding_idx 0).length := by simpa using hj
  rw [List.getD_eq_getElem?_getD, List.getElem?_eq_getElem hb, Option.getD_some]
  by_cases hjp : j = ls.padding_idx
  · subst hjp
    rw [List.getElem_set_self, if_pos rfl]
  · rw [List.getElem_set_ne fun h => hjp h.symm, if_neg hjp]
    by_cases hjt : j = t
    · subst hjt
      rw [List.getElem_set_self, if_pos rfl]
    · rw [List.getElem_set_ne fun h => hjt h.symm, List.getElem_replicate, if_neg hjt]

theorem smoothedRow_sum (ls : LabelSmoothing) (t : Nat) (ht : t < ls.size)
    (hp : ls.padding_idx < ls.size) (htp : t ≠ ls.padding_idx)
    (hconf : ls.confidence = 1 - ls.smoothing) (hs : 3 ≤ ls.size) :
    (smoothedRow ls t).sum = 1 := by
  have hd : ((ls.size : ℚ) - 2) ≠ 0 := by
    have : (3 : ℚ) ≤ (ls.size : ℚ) := by exact_mod_cast hs
    linarith
  unfold smoothedRow
  rw [if_neg htp]
  rw [sum_set_of_lt _ _ _ (by simpa using hp), sum_set_of_lt _ _ _ (by simpa using ht)]
  have h1 : (List.replicate ls.size (ls.smoothing / ((ls.size : ℚ) - 2))).getD t 0
      = ls.smoothing / ((ls.size : ℚ) - 2) := by
    rw [List.getD_eq_getElem?_getD, List.getElem?_eq_getElem (by simpa using ht),
      Option.getD_some, List.getElem_replicate]
  have h2 : ((List.replicate ls.size (ls.smoothing / ((ls.size : ℚ) - 2))).set t
      ls.confidence).getD ls.padding_idx 0 = ls.smoothing / ((ls.size : ℚ) - 2) := by
    rw [List.getD_eq_getElem?_getD, List.getElem?_eq_getElem (by simpa using hp),
      Option.getD_some, List.getElem_set_ne htp, List.getElem_replicate]
  rw [h1, h2, List.sum_replicate, nsmul_eq_mul, hconf]
  field_simp
  ring

/-- C2: for a well-formed input (`size ≥ 3`, padding id and all target ids
below `size`, rows of width `size`, matching row counts),
`LabelSmoothing.forward` succeeds and its target distribution gives every
non-target non-padding class `smoothing / (size - 2)`, the target class
`1 - smoothing`, the padding column `0`, zeroes every row whose target is
the padding id, and each row sums to `1` (non-padding target) or `0`
(padding target). -/
theorem label_smoothing_spec (size pad : Nat) (sm : ℚ) (x : List (List ℚ)) (target : List Nat)
    (hsize : 3 ≤ size) (hpad : pad < size)
    (htgt : ∀ t ∈ target, t < size)
    (hxw : ∀ r ∈ x, r.length = size)
    (hlen : target.length = x.length) :
    (LabelSmoothing.forwardDist (LabelSmoothing.make size pad sm) x target
      = .ok ((LabelSmoothing.make size pad sm).trueDist target)) ∧
    ∀ r, r < target.length →
      (((LabelSmoothing.make size pad sm).trueDist target).getD r []).length = size ∧
      (target.getD r 0 = pad →
        (∀ j, j < size → (((LabelSmoothing.make size pad sm).trueDist target).getD r []).getD j 0 = 0) ∧
        (((LabelSmoothing.make size pad sm).trueDist target).getD r []).sum = 0) ∧
      (target.getD r 0 ≠ pad →
        (((LabelSmoothing.make size pad sm).trueDist target).getD r []).getD pad 0 = 0 ∧
        (((LabelSmoothing.make size pad sm).trueDist target).getD r []).getD (target.getD r 0) 0
          = 1 - sm ∧
        (∀ j, j < size → j ≠ target.getD r 0 → j ≠ pad →
          (((LabelSmoothing.make size pad sm).trueDist target).getD r []).getD j 0
            = sm / ((size : ℚ) - 2)) ∧
        (((LabelSmoothing.make size pad sm).trueDist target).getD r []).sum = 1) := by
  have hmk : (LabelSmoothing.make size pad sm).size = size := rfl
  have hmkp : (LabelSmoothing.make size pad sm).padding_idx = pad := rfl
  have hmkc : (LabelSmoothing.make size pad sm).confidence = 1 - sm := rfl
  have hmks : (LabelSmoothing.make size pad sm).smoothing = sm := rfl
  constructor
  · unfold LabelSmoothing.forwardDist
    have h1 : (x.all fun r => r.length == (LabelSmoothing.make size pad sm).size) = true := by
      rw [List.all_eq_true]
      intro r hr
      simpa [hmk] using hxw r hr
    have h2 : (target.all fun t => decide (t < (LabelSmoothing.make size pad sm).size)) = true := by
      rw [List.all_eq_true]
      intro t htm
      simpa [hmk] using htgt t htm
    rw [if_neg (by simp [h1]), if_neg (by rw [hmk]; omega), if_neg (by rw [hlen]; simp),
      if_neg (by simp [h2]), if_neg (by rw [hmkp, hmk]; tauto)]
  · intro r hr
    have hrow : ((LabelSmoothing.make size pad sm).trueDist target).getD r []
        = smoothedRow (LabelSmoothing.make size pad sm) (target.getD r 0) := by
      unfold LabelSmoothing.trueDist
      rw [List.getD_eq_getElem?_getD, List.getElem?_map, List.getElem?_eq_getElem hr]
      simp [List.getD_eq_getElem?_getD, List.getElem?_eq_getElem hr]
    have htr : target.getD r 0 < size := by
      have hmem : target.getD r 0 ∈ target := by
        rw [List.getD_eq_getElem?_getD, List.getElem?_eq_getElem hr, Option.getD_some]
        exact List.getElem_mem hr
      exact htgt _ hmem
    rw [hrow]
    refine ⟨by rw [smoothedRow_length, hmk], fun hpadr => ?_, fun hne => ?_⟩
    · rw [smoothedRow_of_pad _ _ (by rw [hmkp]; exact hpadr), hmk]
      constructor
      · intro j hj
        rw [List.getD_eq_getElem?_getD, List.getElem?_eq_getElem (by simpa using hj),
          Option.getD_some, List.getElem_replicate]
      · simp
    · have hne' : target.getD r 0 ≠ (LabelSmoothing.make size pad sm).padding_idx := by
        rw [hmkp]; exact hne
      refine ⟨?_, ?_, ?_, ?_⟩
      · rw [smoothedRow_getD _ _ _ (by rw [hmk]; exact htr) (by rw [hmk]; exact hpad) hne',
          hmkp, if_pos rfl]
      · rw [smoothedRow_getD _ _ _ (by rw [hmk]; exact htr) (by rw [hmk]; exact htr) hne',
          hmkp, if_neg hne, if_pos rfl, hmkc]
      · intro j hj hjt hjp
        rw [smoothedRow_getD _ _ _ (by rw [hmk]; exact htr) (by rw [hmk]; exact hj) hne',
          hmkp, if_neg hjp, if_neg hjt, hmks, hmk]
      · exact smoothedRow_sum _ _ (by rw [hmk]; exact htr) (by rw [hmkp, hmk]; exact hpad)
          hne' hmkc (by rw [hmk]; exact hsize)

theorem label_smoothing_spec_witness :
    (3 ≤ 4 ∧ 0 < 4 ∧ (∀ t ∈ [2, 0], t < 4) ∧
      (∀ r ∈ [[(0 : ℚ), 0, 0, 0], [0, 0, 0, 0]], r.length = 4) ∧
      [2, 0].length = [[(0 : ℚ), 0, 0, 0], [0, 0, 0, 0]].length) ∧
    ((LabelSmoothing.forwardDist (LabelSmoothing.make 4 0 (1/10))
        [[(0 : ℚ), 0, 0, 0], [0, 0, 0, 0]] [2, 0]
      = .ok ((LabelSmoothing.make 4 0 (1/10)).trueDist [2, 0])) ∧
    ∀ r, r < [2, 0].length →
      (((LabelSmoothing.make 4 0 (1/10)).trueDist [2, 0]).getD r []).length = 4 ∧
      ([2, 0].getD r 0 = 0 →
        (∀ j, j < 4 → (((LabelSmoothing.make 4 0 (1/10)).trueDist [2, 0]).getD r []).getD j 0 = 0) ∧
        (((LabelSmoothing.make 4 0 (1/10)).trueDist [2, 0]).getD r []).sum = 0) ∧
      ([2, 0].getD r 0 ≠ 0 →
        (((LabelSmoothing.make 4 0 (1/10)).trueDist [2, 0]).getD r []).getD 0 0 = 0 ∧
        (((LabelSmoothing.make 4 0 (1/10)).trueDist [2, 0]).getD r []).getD ([2, 0].getD r 0) 0
          = 1 - 1/10 ∧
        (∀ j, j < 4 → j ≠ [2, 0].getD r 0 → j ≠ 0 →
          (((LabelSmoothing.make 4 0 (1/10)).trueDist [2, 0]).getD r []).getD j 0
            = (1/10) / ((4 : ℚ) - 2)) ∧
        (((LabelSmoothing.make 4 0 (1/10)).trueDist [2, 0]).getD r []).sum = 1)) :=
  ⟨⟨by norm_num, by norm_num, by decide, by decide, by decide⟩,
    label_smoothing_spec 4 0 (1/10) [[(0 : ℚ), 0, 0, 0], [0, 0, 0, 0]] [2, 0]
      (by norm_num) (by norm_num) (by decide) (by decide) (by decide)⟩

/-- C10: `LabelSmoothing.forward` divides by `size - 2`, so with a
vocabulary of exactly 2 classes every call on a width-2 input fails with a
division-by-zero error at call time, while the constructor accepts
`size = 2` without complaint (it merely stores the fields). -/
theorem label_smoothing_size_two_spec (pad : Nat) (sm : ℚ) (x : List (List ℚ))
    (target : List Nat) (hxw : ∀ r ∈ x, r.length = 2) :
    LabelSmoothing.make 2 pad sm
      = { padding_idx := pad, confidence := 1 - sm, smoothing := sm, size := 2 } ∧
    LabelSmoothing.forwardDist (LabelSmoothing.make 2 pad sm) x target
      = .error .zeroDivision := by
  refine ⟨rfl, ?_⟩
  unfold LabelSmoothing.forwardDist
  have h1 : (x.all fun r => r.length == (LabelSmoothing.make 2 pad sm).size) = true := by
    rw [List.all_eq_true]
    intro r hr
    simpa using hxw r hr
  rw [if_neg (by simp [h1]), if_pos (show (LabelSmoothing.make 2 pad sm).size = 2 from rfl)]

theorem label_smoothing_size_two_spec_witness :
    (∀ r ∈ [[(5 : ℚ), 7]], r.length = 2) ∧
    (LabelSmoothing.make 2 0 (1/10)
      = { padding_idx := 0, confidence := 1 - 1/10, smoothing := 1/10, size := 2 } ∧
    LabelSmoothing.forwardDist (LabelSmoothing.make 2 0 (1/10)) [[(5 : ℚ), 7]] [1]
      = .error .zeroDivision) :=
  ⟨by decide, label_smoothing_size_two_spec 0 (1/10) [[(5 : ℚ), 7]] [1] (by decide)⟩

theorem headD_append_singleton (l : List Nat) (w d : Nat) (h : l ≠ []) :
    (l ++ [w]).headD d = l.headD d := by
  cases l with
  | nil => exact absurd rfl h
  | cons a t => rfl

theorem mem_zipWith_append (ys : List (List Nat)) (nw : List Nat) (s : List Nat)
    (hs : s ∈ List.zipWith (fun s w => s ++ [w]) ys nw) :
    ∃ y ∈ ys, ∃ w, s = y ++ [w] := by
  rw [List.mem_iff_getElem] at hs
  obtain ⟨i, hi, heq⟩ := hs
  have hiy : i < ys.length := by
    rw [List.length_zipWith] at hi
    omega
  refine ⟨ys.get ⟨i, hiy⟩, List.get_mem ys i hiy, nw.get ⟨i, by
    rw [List.length_zipWith] at hi
    omega⟩, ?_⟩
  rw [← heq, List.getElem_zipWith]
  simp

theorem greedyLoop_invariant (next : List (List Nat) → List Nat) (es h0 : Nat)
    (hnext : ∀ ys, (next ys).length = ys.length) :
    ∀ (fuel : Nat) (ys : List (List Nat)) (l : Nat), 1 ≤ l →
      (∀ s ∈ ys, s.length = l ∧ s.headD 0 = h0) →
      ∃ l2, l ≤ l2 ∧ l2 ≤ l + fuel ∧ (1 ≤ fuel → l + 1 ≤ l2) ∧
        (greedyLoop next es fuel ys).length = ys.length ∧
        (∀ s ∈ greedyLoop next es fuel ys, s.length = l2 ∧ s.headD 0 = h0) := by
  intro fuel
  induction fuel with
  | zero =>
    intro ys l hl hinv
    exact ⟨l, le_refl l, by omega, by omega, rfl, hinv⟩
  | succ k ih =>
    intro ys l hl hinv
    have hlen' : (List.zipWith (fun s w => s ++ [w]) ys (next ys)).length = ys.length := by
      rw [List.length_zipWith, hnext]
      omega
    have hinv' : ∀ s ∈ List.zipWith (fun s w => s ++ [w]) ys (next ys),
        s.length = l + 1 ∧ s.headD 0 = h0 := by
      intro s hs
      obtain ⟨y, hy, w, rfl⟩ := mem_zipWith_append _ _ _ hs
      obtain ⟨hyl, hyh⟩ := hinv y hy
      refine ⟨by simp [hyl], ?_⟩
      rw [headD_append_singleton _ _ _ (by intro hnil; rw [hnil] at hyl; simp at hyl; omega)]
      exact hyh
    rw [show greedyLoop next es (k + 1) ys
        = if (next ys).all (fun w => w == es)
          then List.zipWith (fun s w => s ++ [w]) ys (next ys)
          else greedyLoop next es k (List.zipWith (fun s w => s ++ [w]) ys (next ys))
        from rfl]
    by_cases hc : (next ys).all (fun w => w == es) = true
    · rw [if_pos hc]
      exact ⟨l + 1, by omega, by omega, by omega, hlen', hinv'⟩
    · rw [if_neg hc]
      obtain ⟨l2, h1, h2, _, h4, h5⟩ := ih (List.zipWith (fun s w => s ++ [w]) ys (next ys))
        (l + 1) (by omega) hinv'
      exact ⟨l2, by omega, by omega, by omega, by rw [h4, hlen'], h5⟩

theorem greedyLoop_stops (next : List (List Nat) → List Nat) (es : Nat) :
    ∀ (k fuel : Nat) (ys : List (List Nat)), k < fuel →
      (∀ j, j < k →
        ((next ((greedyStep next)^[j] ys)).all fun w => w == es) = false) →
      ((next ((greedyStep next)^[k] ys)).all fun w => w == es) = true →
      greedyLoop next es fuel ys = (greedyStep next)^[k + 1] ys := by
  intro k
  induction k with
  | zero =>
    intro fuel ys hk _ hstop
    obtain ⟨m, rfl⟩ : ∃ m, fuel = m + 1 := ⟨fuel - 1, by omega⟩
    rw [show greedyLoop next es (m + 1) ys
        = if (next ys).all (fun w => w == es) then greedyStep next ys
          else greedyLoop next es m (greedyStep next ys)
        from rfl]
    simp only [Function.iterate_zero_apply] at hstop
    rw [if_pos hstop]
    simp
  | succ k ih =>
    intro fuel ys hk hfalse hstop
    obtain ⟨m, rfl⟩ : ∃ m, fuel = m + 1 := ⟨fuel - 1, by omega⟩
    rw [show greedyLoop next es (m + 1) ys
        = if (next ys).all (fun w => w == es) then greedyStep next ys
          else greedyLoop next es m (greedyStep next ys)
        from rfl]
    have h0 : ((next ys).all fun w => w == es) = false := by
      simpa using hfalse 0 (by omega)
    rw [if_neg (by simp [h0])]
    rw [ih m (greedyStep next ys) (by omega)
      (by
        intro j hj
        have := hfalse (j + 1) (by omega)
        rwa [Function.iterate_succ_apply] at this)
      (by rwa [Function.iterate_succ_apply] at hstop)]
    rw [← Function.iterate_succ_apply]

theorem greedyStep_iterate_facts (next : List (List Nat) → List Nat)
    (hnext : ∀ ys, (next ys).length = ys.length) (B h0 : Nat) :
    ∀ j, ((greedyStep next)^[j] (List.replicate B [h0])).length = B ∧
      ∀ s ∈ (greedyStep next)^[j] (List.replicate B [h0]), s.length = j + 1 := by
  intro j
  induction j with
  | zero =>
    refine ⟨by simp, fun s hs => ?_⟩
    simp only [Function.iterate_zero_apply] at hs
    rw [List.eq_of_mem_replicate hs]
    rfl
  | succ j ih =>
    obtain ⟨ihl, ihm⟩ := ih
    rw [Function.iterate_succ_apply']
    constructor
    · simp only [greedyStep]
      rw [List.length_zipWith, hnext, ihl, Nat.min_self]
    · intro s hs
      obtain ⟨y, hy, w, rfl⟩ := mem_zipWith_append _ _ _ hs
      rw [List.length_append, ihm y hy]
      rfl

/-- C6: `greedy_decode` returns a batch of `B` equal-length sequences, each
beginning with the start symbol, of total length between 2 and `max_len`
(at most `max_len - 1` decoding steps); it returns as soon as every
sequence's most recently appended token equals the end symbol — if the
first step `k` (with `k + 1 ≤ max_len - 1` appends performed) is the one
whose predicted tokens are all the end symbol, the result is exactly the
trajectory state after that append, of length `k + 2`; in particular, when
every sequence's first predicted token is the end symbol the result has
length exactly 2. -/
theorem greedy_decode_spec (next : List (List Nat) → List Nat)
    (B max_len start_symbol end_symbol : Nat)
    (hB : 1 ≤ B) (hml : 2 ≤ max_len)
    (hnext : ∀ ys, (next ys).length = ys.length) :
    (greedy_decode next B max_len start_symbol end_symbol).length = B ∧
    (∃ l2, 2 ≤ l2 ∧ l2 ≤ max_len ∧
      ∀ s ∈ greedy_decode next B max_len start_symbol end_symbol,
        s.length = l2 ∧ s.headD 0 = start_symbol) ∧
    (∀ k, k < max_len - 1 →
      (∀ j, j < k →
        ((next ((greedyStep next)^[j] (List.replicate B [start_symbol]))).all
          fun w => w == end_symbol) = false) →
      ((next ((greedyStep next)^[k] (List.replicate B [start_symbol]))).all
        fun w => w == end_symbol) = true →
      greedy_decode next B max_len start_symbol end_symbol
          = (greedyStep next)^[k + 1] (List.replicate B [start_symbol]) ∧
        ∀ s ∈ greedy_decode next B max_len start_symbol end_symbol, s.length = k + 2) ∧
    ((next (List.replicate B [start_symbol])).all (fun w => w == end_symbol) = true →
      ∀ s ∈ greedy_decode next B max_len start_symbol end_symbol, s.length = 2) := by
  have hinit : ∀ s ∈ List.replicate B [start_symbol], s.length = 1 ∧ s.headD 0 = start_symbol := by
    intro s hs
    rw [List.eq_of_mem_replicate hs]
    exact ⟨rfl, rfl⟩
  obtain ⟨l2, h1, h2, h3, h4, h5⟩ := greedyLoop_invariant next end_symbol start_symbol hnext
    (max_len - 1) (List.replicate B [start_symbol]) 1 (le_refl 1) hinit
  have hgen : ∀ k, k < max_len - 1 →
      (∀ j, j < k →
        ((next ((greedyStep next)^[j] (List.replicate B [start_symbol]))).all
          fun w => w == end_symbol) = false) →
      ((next ((greedyStep next)^[k] (List.replicate B [start_symbol]))).all
        fun w => w == end_symbol) = true →
      greedy_decode next B max_len start_symbol end_symbol
          = (greedyStep next)^[k + 1] (List.replicate B [start_symbol]) ∧
        ∀ s ∈ greedy_decode next B max_len start_symbol end_symbol, s.length = k + 2 := by
    intro k hk hfalse hstop
    have heq : greedy_decode next B max_len start_symbol end_symbol
        = (greedyStep next)^[k + 1] (List.replicate B [start_symbol]) := by
      unfold greedy_decode
      exact greedyLoop_stops next end_symbol k (max_len - 1) _ hk hfalse hstop
    refine ⟨heq, ?_⟩
    rw [heq]
    intro s hs
    exact (greedyStep_iterate_facts next hnext B start_symbol (k + 1)).2 s hs
  refine ⟨?_, ⟨l2, ?_, ?_, h5⟩, hgen, ?_⟩
  · unfold greedy_decode
    rw [h4, List.length_replicate]
  · have := h3 (by omega)
    omega
  · omega
  · intro hc
    exact (hgen 0 (by omega) (fun j hj => absurd hj (Nat.not_lt_zero j))
      (by simpa using hc)).2

theorem greedy_decode_spec_witness :
    (1 ≤ 2 ∧ 2 ≤ 5 ∧ (∀ ys : List (List Nat), (ys.map fun s => s.length).length = ys.length)) ∧
    ((greedy_decode (fun ys => ys.map fun s => s.length) 2 5 9 1).length = 2 ∧
    (∃ l2, 2 ≤ l2 ∧ l2 ≤ 5 ∧
      ∀ s ∈ greedy_decode (fun ys => ys.map fun s => s.length) 2 5 9 1,
        s.length = l2 ∧ s.headD 0 = 9) ∧
    (∀ k, k < 5 - 1 →
      (∀ j, j < k →
        (((fun ys : List (List Nat) => ys.map fun s => s.length)
          ((greedyStep (fun ys => ys.map fun s => s.length))^[j] (List.replicate 2 [9]))).all
          fun w => w == 1) = false) →
      (((fun ys : List (List Nat) => ys.map fun s => s.length)
        ((greedyStep (fun ys => ys.map fun s => s.length))^[k] (List.replicate 2 [9]))).all
        fun w => w == 1) = true →
      greedy_decode (fun ys => ys.map fun s => s.length) 2 5 9 1
          = (greedyStep (fun ys => ys.map fun s => s.length))^[k + 1] (List.replicate 2 [9]) ∧
        ∀ s ∈ greedy_decode (fun ys => ys.map fun s => s.length) 2 5 9 1, s.length = k + 2) ∧
    (((fun ys : List (List Nat) => ys.map fun s => s.length)
        (List.replicate 2 [9])).all (fun w => w == 1) = true →
      ∀ s ∈ greedy_decode (fun ys => ys.map fun s => s.length) 2 5 9 1, s.length = 2)) :=
  ⟨⟨by decide, by decide, fun ys => by simp⟩,
    greedy_decode_spec (fun ys => ys.map fun s => s.length) 2 5 9 1
      (by decide) (by decide) (fun ys => by simp)⟩

/-- C8 counterexample: constructing `NoamOpt` with warm-up `0` (a
non-positive warm-up) does NOT raise at construction — `__init__` merely
stores the fields — while the very first `rate` call fails with the
division error the claim wanted caught at construction time. -/
theorem noamopt_fail_fast_counterexample :
    NoamOpt.make 512 1 0
      = { model_size := 512, factor := 1, warmup := 0, stepCount := 0, rateVal := 0 } ∧
    (NoamOpt.make 512 1 0).rateE 1 = none := by
  refine ⟨rfl, ?_⟩
  unfold NoamOpt.rateE
  rw [show (NoamOpt.make 512 1 0).warmup = 0 from rfl]
  rw [if_pos (Or.inr (Or.inl rfl))]

/-- C8 (amended): `NoamOpt.__init__` performs no validation — any
(including zero) warm-up/model-size is accepted and stored unchanged at
construction, and a zero warm-up or model-size (or step) instead makes
`rate` fail with a division-by-zero error at its first call, mid-training;
whereas `MultiGPULossCompute.__init__` with an invalid device list (one
naming an unavailable device) does fail at construction — inside its
`nn.parallel.replicate(criterion, devices)` call — not during a later
`__call__`. -/
theorem construction_validation_spec {γ : Type} (m f w s : ℚ)
    (available : Nat) (criterion : γ) (devices : List Nat) (chunk_size : Nat)
    (hz : m = 0 ∨ w = 0 ∨ s = 0)
    (hbad : ∃ d ∈ devices, available ≤ d) :
    (NoamOpt.make m f w
      = { model_size := m, factor := f, warmup := w, stepCount := 0, rateVal := 0 } ∧
    (NoamOpt.make m f w).rateE s = none) ∧
    MultiGPULossCompute.make available criterion devices chunk_size = none := by
  refine ⟨⟨rfl, ?_⟩, ?_⟩
  · unfold NoamOpt.rateE
    rw [show (NoamOpt.make m f w).model_size = m from rfl,
      show (NoamOpt.make m f w).warmup = w from rfl]
    rw [if_pos hz]
  · unfold MultiGPULossCompute.make replicateModules
    obtain ⟨d, hd, hge⟩ := hbad
    rw [if_neg]
    · rfl
    · intro hall
      rw [List.all_eq_true] at hall
      have := of_decide_eq_true (hall d hd)
      omega

theorem construction_validation_spec_witness :
    (((512 : ℚ) = 0 ∨ (0 : ℚ) = 0 ∨ (1 : ℚ) = 0) ∧ (∃ d ∈ [0, 3], 1 ≤ d)) ∧
    ((NoamOpt.make 512 1 0
      = { model_size := 512, factor := 1, warmup := 0, stepCount := 0, rateVal := 0 } ∧
    (NoamOpt.make 512 1 0).rateE 1 = none) ∧
    MultiGPULossCompute.make 1 (7 : Nat) [0, 3] 5 = none) :=
  ⟨⟨Or.inr (Or.inl rfl), by decide⟩,
    construction_validation_spec 512 1 0 1 1 (7 : Nat) [0, 3] 5
      (Or.inr (Or.inl rfl)) (by decide)⟩

theorem noamRate_branch_le (s w : ℝ) (hs : 0 < s) (hw : 0 < w) (hsw : s ≤ w) :
    s * w ^ (-(3 : ℝ)/2) ≤ s ^ (-(1 : ℝ)/2) := by
  have hw32 : (0 : ℝ) < w ^ ((3 : ℝ)/2) := Real.rpow_pos_of_pos hw _
  have hs12 : (0 : ℝ) < s ^ ((1 : ℝ)/2) := Real.rpow_pos_of_pos hs _
  rw [show (-(3 : ℝ)/2) = -((3 : ℝ)/2) by norm_num, show (-(1 : ℝ)/2) = -((1 : ℝ)/2) by norm_num,
    Real.rpow_neg hw.le, Real.rpow_neg hs.le, ← div_eq_mul_inv, ← one_div,
    div_le_div_iff₀ hw32 hs12, one_mul]
  have hmul : s * s ^ ((1 : ℝ)/2) = s ^ ((3 : ℝ)/2) := by
    nth_rewrite 1 [← Real.rpow_one s]
    rw [← Real.rpow_add hs]
    norm_num
  rw [hmul]
  exact Real.rpow_le_rpow hs.le hsw (by norm_num)

theorem noamRate_branch_ge (s w : ℝ) (hw : 0 < w) (hws : w ≤ s) :
    s ^ (-(1 : ℝ)/2) ≤ s * w ^ (-(3 : ℝ)/2) := by
  have hs : 0 < s := lt_of_lt_of_le hw hws
  have hw32 : (0 : ℝ) < w ^ ((3 : ℝ)/2) := Real.rpow_pos_of_pos hw _
  have hs12 : (0 : ℝ) < s ^ ((1 : ℝ)/2) := Real.rpow_pos_of_pos hs _
  rw [show (-(3 : ℝ)/2) = -((3 : ℝ)/2) by norm_num, show (-(1 : ℝ)/2) = -((1 : ℝ)/2) by norm_num,
    Real.rpow_neg hw.le, Real.rpow_neg hs.le, ← div_eq_mul_inv, ← one_div,
    div_le_div_iff₀ hs12 hw32, one_mul]
  have hmul : s * s ^ ((1 : ℝ)/2) = s ^ ((3 : ℝ)/2) := by
    nth_rewrite 1 [← Real.rpow_one s]
    rw [← Real.rpow_add hs]
    norm_num
  rw [hmul]
  exact Real.rpow_le_rpow hw.le hws (by norm_num)

/-- C3: for positive `factor`, `model_size` and `warmup`, `NoamOpt.rate`
(whose value is `noamRate`, i.e.
`factor * model_size^(-0.5) * min(s^(-0.5), s * warmup^(-1.5))`) is
strictly positive for every step `s ≥ 1`, non-decreasing on `s ≤ warmup`,
non-increasing on `s ≥ warmup`, and maximal at `s = warmup`. -/
theorem noam_rate_spec (model_size factor warmup : ℝ)
    (hf : 0 < factor) (hm : 0 < model_size) (hw : 0 < warmup) :
    (∀ s, 1 ≤ s → 0 < noamRate model_size factor warmup s) ∧
    (∀ s1 s2, 1 ≤ s1 → s1 ≤ s2 → s2 ≤ warmup →
      noamRate model_size factor warmup s1 ≤ noamRate model_size factor warmup s2) ∧
    (∀ s1 s2, warmup ≤ s1 → s1 ≤ s2 →
      noamRate model_size factor warmup s2 ≤ noamRate model_size factor warmup s1) ∧
    (∀ s, 1 ≤ s → noamRate model_size factor warmup s
      ≤ noamRate model_size factor warmup warmup) := by
  have hpos : ∀ s, 1 ≤ s → 0 < noamRate model_size factor warmup s := by
    intro s hs
    have hs0 : (0 : ℝ) < s := by linarith
    unfold noamRate
    refine mul_pos hf (mul_pos (Real.rpow_pos_of_pos hm _) (lt_min_iff.mpr ⟨?_, ?_⟩))
    · exact Real.rpow_pos_of_pos hs0 _
    · exact mul_pos hs0 (Real.rpow_pos_of_pos hw _)
  have hup : ∀ s1 s2, 1 ≤ s1 → s1 ≤ s2 → s2 ≤ warmup →
      noamRate model_size factor warmup s1 ≤ noamRate model_size factor warmup s2 := by
    intro s1 s2 h1 h12 h2w
    have hs1 : (0 : ℝ) < s1 := by linarith
    have hs2 : (0 : ℝ) < s2 := by linarith
    unfold noamRate
    rw [min_eq_right (noamRate_branch_le s1 warmup hs1 hw (by linarith)),
      min_eq_right (noamRate_branch_le s2 warmup hs2 hw h2w)]
    have hwn : (0 : ℝ) ≤ warmup ^ (-(3 : ℝ)/2) := (Real.rpow_pos_of_pos hw _).le
    have hmn : (0 : ℝ) ≤ model_size ^ (-(1 : ℝ)/2) := (Real.rpow_pos_of_pos hm _).le
    apply mul_le_mul_of_nonneg_left _ hf.le
    apply mul_le_mul_of_nonneg_left _ hmn
    exact mul_le_mul_of_nonneg_right h12 hwn
  have hdown : ∀ s1 s2, warmup ≤ s1 → s1 ≤ s2 →
      noamRate model_size factor warmup s2 ≤ noamRate model_size factor warmup s1 := by
    intro s1 s2 h1 h12
    have hs1 : (0 : ℝ) < s1 := lt_of_lt_of_le hw h1
    have hs2 : (0 : ℝ) < s2 := by linarith
    unfold noamRate
    rw [min_eq_left (noamRate_branch_ge s1 warmup hw h1),
      min_eq_left (noamRate_branch_ge s2 warmup hw (by linarith))]
    have hinv : s2 ^ (-(1 : ℝ)/2) ≤ s1 ^ (-(1 : ℝ)/2) := by
      rw [show (-(1 : ℝ)/2) = -((1 : ℝ)/2) by norm_num, Real.rpow_neg hs1.le,
        Real.rpow_neg hs2.le, ← one_div, ← one_div]
      exact one_div_le_one_div_of_le (Real.rpow_pos_of_pos hs1 _)
        (Real.rpow_le_rpow hs1.le h12 (by norm_num))
    have hmn : (0 : ℝ) ≤ model_size ^ (-(1 : ℝ)/2) := (Real.rpow_pos_of_pos hm _).le
    apply mul_le_mul_of_nonneg_left _ hf.le
    exact mul_le_mul_of_nonneg_left hinv hmn
  refine ⟨hpos, hup, hdown, ?_⟩
  intro s hs
  rcases le_total s warmup with h | h
  · exact hup s warmup hs h (le_refl _)
  · exact hdown warmup s (le_refl _) h

theorem noam_rate_spec_witness :
    ((0 : ℝ) < 1 ∧ (0 : ℝ) < 4 ∧ (0 : ℝ) < 2) ∧
    ((∀ s, 1 ≤ s → 0 < noamRate 4 1 2 s) ∧
    (∀ s1 s2, 1 ≤ s1 → s1 ≤ s2 → s2 ≤ 2 →
      noamRate 4 1 2 s1 ≤ noamRate 4 1 2 s2) ∧
    (∀ s1 s2, (2 : ℝ) ≤ s1 → s1 ≤ s2 → noamRate 4 1 2 s2 ≤ noamRate 4 1 2 s1) ∧
    (∀ s, 1 ≤ s → noamRate 4 1 2 s ≤ noamRate 4 1 2 2)) :=
  ⟨⟨by norm_num, by norm_num, by norm_num⟩,
    noam_rate_spec 4 1 2 (by norm_num) (by norm_num) (by norm_num)⟩

theorem critSum_append (f : List ℚ → Nat → ℚ) (as cs : List (List ℚ)) (bs ds : List Nat)
    (h : as.length = bs.length) :
    critSum f (as ++ cs) (bs ++ ds) = critSum f as bs + critSum f cs ds := by
  unfold critSum
  rw [List.zipWith_append _ _ _ _ _ h, List.sum_append]

theorem critSum_flatten (f : List ℚ → Nat → ℚ) (xss : List (List (List ℚ)))
    (yss : List (List Nat)) (h : List.Forall₂ (fun a b => a.length = b.length) xss yss) :
    critSum f xss.flatten yss.flatten = (List.zipWith (critSum f) xss yss).sum := by
  induction h with
  | nil => simp [critSum]
  | cons h1 h2 ih =>
    simp only [List.flatten_cons, List.zipWith_cons_cons, List.sum_cons]
    rw [critSum_append _ _ _ _ _ h1, ih]

theorem sum_map_add_q {γ : Type} (L : List γ) (p q : γ → ℚ) :
    (L.map fun i => p i + q i).sum = (L.map p).sum + (L.map q).sum := by
  induction L with
  | nil => simp
  | cons a l ih =>
    simp only [List.map_cons, List.sum_cons, ih]
    ring

theorem sum_map_zipWith {γ α β : Type} (L : List γ) (h : γ → α → β → ℚ) :
    ∀ (as : List α) (bs : List β),
      (L.map fun i => (List.zipWith (h i) as bs).sum).sum
        = (List.zipWith (fun a b => (L.map fun i => h i a b).sum) as bs).sum := by
  intro as
  induction as with
  | nil => intro bs; simp
  | cons a as ih =>
    intro bs
    cases bs with
    | nil => simp
    | cons b bs =>
      simp only [List.zipWith_cons_cons, List.sum_cons]
      rw [sum_map_add_q, ih bs]

theorem pyRange_of_lt (start stop step : Nat) (h1 : 0 < step) (h2 : start < stop) :
    pyRange start stop step = start :: pyRange (start + step) stop step := by
  rw [pyRange]
  rw [if_pos ⟨h1, h2⟩]

theorem pyRange_of_ge (start stop step : Nat) (h : ¬ (0 < step ∧ start < stop)) :
    pyRange start stop step = [] := by
  rw [pyRange]
  rw [if_neg h]

theorem critSum_chunks (f : List ℚ → Nat → ℚ) (c T : Nat) (hc : 0 < c)
    (a : List (List ℚ)) (b : List Nat) (ha : a.length = T) (hb : b.length = T) :
    ∀ k s, T - s ≤ k →
      ((pyRange s T c).map fun i => critSum f ((a.drop i).take c) ((b.drop i).take c)).sum
        = critSum f (a.drop s) (b.drop s) := by
  intro k
  induction k with
  | zero =>
    intro s hs
    rw [pyRange_of_ge _ _ _ (by omega), List.drop_eq_nil_of_le (by omega),
      List.drop_eq_nil_of_le (by omega)]
    simp [critSum]
  | succ k ih =>
    intro s hs
    by_cases h : s < T
    · rw [pyRange_of_lt _ _ _ hc h, List.map_cons, List.sum_cons, ih (s + c) (by omega)]
      have hsplit_a : a.drop s = (a.drop s).take c ++ a.drop (s + c) := by
        conv_lhs => rw [← List.take_append_drop c (a.drop s)]
        rw [List.drop_drop]
      have hsplit_b : b.drop s = (b.drop s).take c ++ b.drop (s + c) := by
        conv_lhs => rw [← List.take_append_drop c (b.drop s)]
        rw [List.drop_drop]
      conv_rhs => rw [hsplit_a, hsplit_b]
      rw [critSum_append _ _ _ _ _ (by simp [ha, hb])]
    · rw [pyRange_of_ge _ _ _ (by omega), List.drop_eq_nil_of_le (by omega),
        List.drop_eq_nil_of_le (by omega)]
      simp [critSum]

theorem scatterSizes_flatten {α : Type} (szs : List Nat) (x : List α)
    (h : szs.sum = x.length) :
    (scatterSizes szs x).flatten = x := by
  induction szs generalizing x with
  | nil =>
    have hx : x = [] := by
      cases x with
      | nil => rfl
      | cons a t => simp at h
    rw [hx]
    rfl
  | cons n rest ih =>
    simp only [scatterSizes, List.flatten_cons]
    rw [ih (x.drop n) (by
      rw [List.length_drop]
      simp only [List.sum_cons] at h
      omega)]
    exact List.take_append_drop n x

theorem scatterSizes_forall₂ {α β : Type} (szs : List Nat) (x : List α) (y : List β)
    (h : x.length = y.length) :
    List.Forall₂ (fun a b => a.length = b.length) (scatterSizes szs x) (scatterSizes szs y) := by
  induction szs generalizing x y with
  | nil => exact List.Forall₂.nil
  | cons n rest ih =>
    exact List.Forall₂.cons (by simp [h]) (ih (x.drop n) (y.drop n) (by simp [h]))

theorem mem_scatterSizes_mem {α : Type} (szs : List Nat) (x : List α) (sh : List α)
    (hsh : sh ∈ scatterSizes szs x) : ∀ r ∈ sh, r ∈ x := by
  induction szs generalizing x with
  | nil => simp [scatterSizes] at hsh
  | cons n rest ih =>
    simp only [scatterSizes, List.mem_cons] at hsh
    rcases hsh with rfl | hsh
    · exact fun r hr => List.mem_of_mem_take hr
    · exact fun r hr => List.mem_of_mem_drop (ih (x.drop n) hsh r hr)

theorem shard_identity {α : Type} (gen : α → List ℚ) (f : List ℚ → Nat → ℚ)
    (c T : Nat) (hc : 0 < c) :
    ∀ (sh : List (List α)) (tsh : List (List Nat)),
      sh.length = tsh.length →
      (∀ r ∈ sh, r.length = T) → (∀ r ∈ tsh, r.length = T) →
      ((pyRange 0 T c).map fun i => chunkLoss gen f sh tsh i c).sum
        = critSum f ((sh.map fun r => r.map gen).flatten) tsh.flatten := by
  intro sh
  induction sh with
  | nil =>
    intro tsh hlen _ _
    have : tsh = [] := by
      cases tsh with
      | nil => rfl
      | cons t ts => simp at hlen
    subst this
    simp [chunkLoss, critSum]
  | cons r sh' ih =>
    intro tsh hlen hrows htrows
    cases tsh with
    | nil => simp at hlen
    | cons t tsh' =>
      have hr : r.length = T := hrows r (by simp)
      have ht : t.length = T := htrows t (by simp)
      have hstep : ∀ i, chunkLoss gen f (r :: sh') (t :: tsh') i c
          = critSum f (((r.map gen).drop i).take c) ((t.drop i).take c)
            + chunkLoss gen f sh' tsh' i c := by
        intro i
        unfold chunkLoss
        simp only [List.map_cons, List.flatten_cons]
        rw [List.map_take, List.map_drop,
          critSum_append _ _ _ _ _ (by simp [hr, ht])]
      simp only [hstep]
      rw [sum_map_add_q,
        ih tsh' (by simpa using hlen)
          (fun x hx => hrows x (by simp [hx])) (fun x hx => htrows x (by simp [hx])),
        critSum_chunks f c T hc (r.map gen) t (by simp [hr]) ht T 0 (by omega)]
      simp only [List.drop_zero, List.map_cons, List.flatten_cons]
      rw [critSum_append _ _ _ _ _ (by simp [hr, ht])]

theorem sum_map_const_nat {γ : Type} (l : List γ) (g : γ → Nat) (T : Nat)
    (h : ∀ x ∈ l, g x = T) : (l.map g).sum = l.length * T := by
  induction l with
  | nil => simp
  | cons a t ih =>
    simp only [List.map_cons, List.sum_cons, List.length_cons]
    rw [h a (by simp), ih fun x hx => h x (by simp [hx])]
    ring

theorem gather_identity {α : Type} (gen : α → List ℚ) (f : List ℚ → Nat → ℚ)
    (c T : Nat) (hc : 0 < c) :
    ∀ (outS : List (List (List α))) (tgtS : List (List (List Nat))),
      List.Forall₂ (fun sh tsh => sh.length = tsh.length) outS tgtS →
      (∀ sh ∈ outS, ∀ r ∈ sh, r.length = T) →
      (∀ tsh ∈ tgtS, ∀ r ∈ tsh, r.length = T) →
      (List.zipWith
        (fun sh tsh => ((pyRange 0 T c).map fun i => chunkLoss gen f sh tsh i c).sum)
        outS tgtS).sum
        = critSum f ((outS.flatten.map fun r => r.map gen).flatten) tgtS.flatten.flatten := by
  intro outS tgtS h
  induction h with
  | nil =>
    intro _ _
    simp [critSum]
  | @cons sh tsh outS' tgtS' h1 h2 ih =>
    intro houts htgts
    simp only [List.zipWith_cons_cons, List.sum_cons, List.flatten_cons, List.map_append,
      List.flatten_append]
    rw [shard_identity gen f c T hc sh tsh h1
        (houts sh (by simp)) (htgts tsh (by simp)),
      ih (fun s hs => houts s (by simp [hs])) (fun s hs => htgts s (by simp [hs])),
      critSum_append]
    simp only [List.length_flatten, List.map_map]
    rw [sum_map_const_nat sh _ T (by
        intro r hr
        simpa using houts sh (by simp) r hr),
      sum_map_const_nat tsh _ T (fun r hr => htgts tsh (by simp) r hr), h1]

/-- C1: for every model output, target batch, positive normalizer,
positive chunk size and device partition (positive shard sizes covering
the batch), `MultiGPULossCompute.__call__` returns exactly the value of
`SimpleLossCompute.__call__` built from the same generator and criterion:
both equal the un-normalized criterion total over all positions (the
normalized loss times the normalizer) — the two contracts coincide, and
no double scaling occurs. -/
theorem multi_gpu_eq_simple {α : Type} (gen : α → List ℚ) (f : List ℚ → Nat → ℚ)
    (szs : List Nat) (chunk_size : Nat) (out : List (List α))
    (targets : List (List Nat)) (norm : ℚ) (T : Nat)
    (hnorm : 0 < norm) (hc : 0 < chunk_size)
    (hsum : szs.sum = out.length)
    (hpos : ∀ n ∈ szs, 0 < n)
    (hne : out ≠ [])
    (hlen : targets.length = out.length)
    (hT : ∀ r ∈ out, r.length = T) (hTt : ∀ r ∈ targets, r.length = T) :
    MultiGPULossCompute gen f szs chunk_size out targets norm
      = SimpleLossCompute gen f out targets norm := by
  have hT0 : (((scatterSizes szs out).headD []).headD []).length = T := by
    cases szs with
    | nil =>
      exfalso
      cases out with
      | nil => exact hne rfl
      | cons o out' => simp at hsum
    | cons n rest =>
      cases out with
      | nil => exact absurd rfl hne
      | cons o out' =>
        have hn : 0 < n := hpos n (by simp)
        obtain ⟨m, rfl⟩ : ∃ m, n = m + 1 := ⟨n - 1, by omega⟩
        rw [show scatterSizes ((m + 1) :: rest) (o :: out')
            = (o :: out').take (m + 1) :: scatterSizes rest ((o :: out').drop (m + 1))
            from rfl]
        simp only [List.headD_cons, List.take_succ_cons]
        exact hT o (by simp)
  simp only [MultiGPULossCompute, SimpleLossCompute]
  rw [hT0, div_mul_cancel₀ _ (ne_of_gt hnorm)]
  simp only [div_eq_mul_inv]
  rw [List.sum_map_mul_right, mul_assoc, inv_mul_cancel₀ (ne_of_gt hnorm), mul_one,
    sum_map_zipWith (pyRange 0 T chunk_size)
      (fun i sh tsh => chunkLoss gen f sh tsh i chunk_size)
      (scatterSizes szs out) (scatterSizes szs targets),
    gather_identity gen f chunk_size T hc (scatterSizes szs out) (scatterSizes szs targets)
      (scatterSizes_forall₂ szs out targets hlen.symm)
      (fun sh hsh r hr => hT r (mem_scatterSizes_mem szs out sh hsh r hr))
      (fun tsh hsh r hr => hTt r (mem_scatterSizes_mem szs targets tsh hsh r hr)),
    scatterSizes_flatten szs out hsum,
    scatterSizes_flatten szs targets (by rw [hlen]; exact hsum)]

theorem multi_gpu_eq_simple_witness :
    (0 < (3 : ℚ) ∧ 0 < 2 ∧ [1, 1].sum = [[(1 : ℚ), 2, 3], [4, 5, 6]].length ∧
      (∀ n ∈ [1, 1], 0 < n) ∧ [[(1 : ℚ), 2, 3], [4, 5, 6]] ≠ [] ∧
      [[1, 0, 2], [2, 2, 0]].length = [[(1 : ℚ), 2, 3], [4, 5, 6]].length ∧
      (∀ r ∈ [[(1 : ℚ), 2, 3], [4, 5, 6]], r.length = 3) ∧
      (∀ r ∈ [[1, 0, 2], [2, 2, 0]], r.length = 3)) ∧
    MultiGPULossCompute (fun v => [v, v + 1]) (fun row t => row.sum * ((t : ℚ) + 1))
        [1, 1] 2 [[(1 : ℚ), 2, 3], [4, 5, 6]] [[1, 0, 2], [2, 2, 0]] 3
      = SimpleLossCompute (fun v => [v, v + 1]) (fun row t => row.sum * ((t : ℚ) + 1))
        [[(1 : ℚ), 2, 3], [4, 5, 6]] [[1, 0, 2], [2, 2, 0]] 3 :=
  ⟨⟨by norm_num, by norm_num, by simp, by decide, by simp, by simp,
    by simp, by decide⟩,
    multi_gpu_eq_simple (fun v => [v, v + 1]) (fun row t => row.sum * ((t : ℚ) + 1))
      [1, 1] 2 [[(1 : ℚ), 2, 3], [4, 5, 6]] [[1, 0, 2], [2, 2, 0]] 3 3
      (by norm_num) (by norm_num) (by simp) (by decide) (by simp) (by simp)
      (by simp) (by decide)⟩

end SLT
